import Mathlib

/-!
# Verification of the Pregel diffusion notebooks

Shallow embedding of the two simulation notebooks (epidemic model and social
platform-switch model) built on a vertex-centric BSP engine, together with
proofs about the embedded definitions.

Randomness: every call of Python random.random consumes the next value of an
ambient stream ds : Nat → Rat (conceptually uniform on [0,1)); an index k into
the stream is threaded through each function exactly in the order the source
performs its draws.
-/

namespace PregelModel

/-- A message is a (vertex, weight, payload) triple; the vertex slot holds the
id of the addressed vertex. -/
abbrev Msg : Type := ℕ × ℤ × String

/-- The Vertex data model shared by both notebooks (fields of the Python
Vertex base class).  The value type is the per-simulation state: ℤ for the
epidemic model, String for the social model. -/
structure Vertex (α : Type) where
  id : ℕ
  value : α
  out_vertices : List ℕ
  incoming_messages : List Msg
  outgoing_messages : List Msg
  active : Bool
  superstep : ℕ
  deriving DecidableEq, Repr

/-! ## Epidemic model (`EpidemicVertex.update`, epidemic notebook) -/

/-- The healthy branch of EpidemicVertex.update: for every incoming message,
draw random.random() and if it is below p set value to 1.  Returns the final
value together with the next unused stream index. -/
def infect_loop (p : ℚ) (ds : ℕ → ℚ) : List Msg → ℤ → ℕ → ℤ × ℕ
  | [], value, k => (value, k)
  | _ :: rest, value, k =>
      infect_loop p ds rest (if ds k < p then 1 else value) (k + 1)

/-- EpidemicVertex.update from the epidemic notebook.  Parameters: i = number
of initially infected vertices, td = incubation length, nsteps = step ceiling,
p = per-message infection probability. -/
def EpidemicVertex.update (i : ℕ) (td : ℤ) (nsteps : ℕ) (p : ℚ) (ds : ℕ → ℚ)
    (self : Vertex ℤ) (k : ℕ) : Vertex ℤ × ℕ :=
  if self.superstep = 0 then
    if self.id < i then ({ self with value := 1 }, k)
    else ({ self with value := 0 }, k)
  else if self.superstep < nsteps then
    if self.value = -1 then ({ self with active := false }, k)
    else if 0 < self.value then
      if self.value ≤ td then
        ({ self with
             value := self.value + 1
             outgoing_messages := self.out_vertices.map fun v => (v, 1, "sneeze") }, k)
      else
        ({ self with value := -1, active := false }, k)
    else
      let r := infect_loop p ds self.incoming_messages self.value k
      ({ self with value := r.1 }, r.2)
  else
    ({ self with active := false }, k)

/-- epidemic_stats from the epidemic notebook.  Python raises on the empty
list (vertices[0] is an IndexError and the division is by zero), modelled by
Option.none; on success it returns the (unchanged) vertex list paired with the
stats triple (superstep, palive, pinfected). -/
def epidemic_stats (vertices : List (Vertex ℤ)) :
    Option (List (Vertex ℤ) × (ℕ × ℚ × ℚ)) :=
  match vertices with
  | [] => none
  | v0 :: _ =>
      some (vertices,
        (v0.superstep,
         ((vertices.countP fun v => decide (0 ≤ v.value)) : ℚ) / (vertices.length : ℚ),
         ((vertices.countP fun v => decide (0 < v.value)) : ℚ) / (vertices.length : ℚ)))

/-! ## Social platform-switch model (`SocialVertex.update`, social notebook) -/

/-- The message-counting loop of SocialVertex.update: tally incoming payloads
"F" and "M"; any other payload raises ValueError (modelled by none). -/
def countFM : List Msg → ℕ → ℕ → Option (ℕ × ℕ)
  | [], f, m => some (f, m)
  | (_, _, msg) :: rest, f, m =>
      if msg = "F" then countFM rest (f + 1) m
      else if msg = "M" then countFM rest f (m + 1)
      else none

/-- The switch function from the social notebook: if m > f, draw once and
return true when the draw is below sp; otherwise return false without
consuming a draw. -/
def switch (sp : ℚ) (ds : ℕ → ℚ) (f m : ℕ) (k : ℕ) : Bool × ℕ :=
  if f < m then (decide (ds k < sp), k + 1) else (false, k)

/-- The outgoing-message comprehension of SocialVertex.update: one draw per
outgoing neighbor, the neighbor is contacted when the draw is below a; the
payload is the vertex's current value. -/
def send_loop (a : ℚ) (val : String) (ds : ℕ → ℚ) : List ℕ → ℕ → List Msg × ℕ
  | [], k => ([], k)
  | u :: rest, k =>
      let r := send_loop a val ds rest (k + 1)
      (if ds k < a then (u, 1, val) :: r.1 else r.1, r.2)

/-- SocialVertex.update from the social notebook.  Parameters: a = activity
probability, sp = switch probability, nsteps = step ceiling.  A ValueError in
the counting loop (payload other than "F"/"M") aborts, modelled by none.
The switch check runs only for a vertex that has not already switched, and the
messages are sent with the value as updated this round. -/
def SocialVertex.update (a sp : ℚ) (nsteps : ℕ) (ds : ℕ → ℚ)
    (self : Vertex String) (k : ℕ) : Option (Vertex String × ℕ) :=
  if self.superstep < nsteps then
    if self.value = "M" then
      let r := send_loop a self.value ds self.out_vertices k
      some ({ self with outgoing_messages := r.1 }, r.2)
    else
      match countFM self.incoming_messages 0 0 with
      | none => none
      | some (f, m) =>
          let s := switch sp ds f m k
          let newval := if s.1 then "M" else self.value
          let r := send_loop a newval ds self.out_vertices s.2
          some ({ self with
                    value := newval
                    outgoing_messages := r.1 }, r.2)
  else
    some ({ self with active := false }, k)

/-- social_stats from the social notebook; as with epidemic_stats, the empty
list raises (modelled by none) and otherwise the unchanged vertex list is
returned with the triple (superstep, pF, pM). -/
def social_stats (vertices : List (Vertex String)) :
    Option (List (Vertex String) × (ℕ × ℚ × ℚ)) :=
  match vertices with
  | [] => none
  | v0 :: _ =>
      some (vertices,
        (v0.superstep,
         ((vertices.countP fun v => decide (v.value = "F")) : ℚ) / (vertices.length : ℚ),
         ((vertices.countP fun v => decide (v.value = "M")) : ℚ) / (vertices.length : ℚ)))

/-! ## The BSP engine

Modelled from the spec: the file pregel.py (classes Vertex and Pregel, the
superstep coordinator and run loop) is imported by both notebooks but is not
part of the sources; its round semantics follows spec section 4.1: invoke each
active vertex's update in stable id order, redistribute every emitted message
into the destination's incoming buffer, clear outgoing buffers, collect stats
on the just-completed superstep, then increment the global step counter. -/

/-- Modelled from the spec: step 3 of the round contract — invoke the update
of every vertex whose active flag is true, in list (id) order, threading the
random stream index; inactive vertices are skipped untouched. -/
def run_updates (upd : (ℕ → ℚ) → Vertex α → ℕ → Vertex α × ℕ) (ds : ℕ → ℚ) :
    List (Vertex α) → ℕ → List (Vertex α) × ℕ
  | [], k => ([], k)
  | v :: rest, k =>
      if v.active then
        let r := upd ds v k
        let rr := run_updates upd ds rest r.2
        (r.1 :: rr.1, rr.2)
      else
        let rr := run_updates upd ds rest k
        (v :: rr.1, rr.2)

/-- All messages emitted during the round, in vertex order. -/
def collect_outgoing : List (Vertex α) → List Msg
  | [] => []
  | v :: rest => v.outgoing_messages ++ collect_outgoing rest

/-- Modelled from the spec: steps 4-5 of the round contract — deliver to each
vertex the emitted messages addressed to its id and clear its own outgoing
buffer (delivery also reaches vertices that have deactivated themselves). -/
def redistribute (all : List Msg) (v : Vertex α) : Vertex α :=
  { v with
      incoming_messages := all.filter fun msg => decide (msg.1 = v.id)
      outgoing_messages := [] }

/-- Modelled from the spec: one full round up to the point where the stats
collector fires (after updates and message redistribution, before the step
counter advances). -/
def round_snapshot (upd : (ℕ → ℚ) → Vertex α → ℕ → Vertex α × ℕ) (ds : ℕ → ℚ)
    (st : List (Vertex α) × ℕ) : List (Vertex α) × ℕ :=
  let r := run_updates upd ds st.1 st.2
  (r.1.map (redistribute (collect_outgoing r.1)), r.2)

/-- Modelled from the spec: step 7 — increment the global superstep counter
uniformly. -/
def advance (st : List (Vertex α) × ℕ) : List (Vertex α) × ℕ :=
  (st.1.map fun v => { v with superstep := v.superstep + 1 }, st.2)

/-- Modelled from the spec: the state seen by the stats collector at the end
of round t (vertices constructed with superstep 0; the actual run loop stops
once no vertex is active, so its stats series is a prefix of this sequence). -/
def pregel_states (upd : (ℕ → ℚ) → Vertex α → ℕ → Vertex α × ℕ) (ds : ℕ → ℚ)
    (init : List (Vertex α)) : ℕ → List (Vertex α) × ℕ
  | 0 => round_snapshot upd ds (init, 0)
  | t + 1 => round_snapshot upd ds (advance (pregel_states upd ds init t))

/-- The initial epidemic vertex list of epidemic_main: vertices j = 0..n-1,
each with the neighbor list produced by create_edges, all active at
superstep 0.  (Python initialises value to an empty list placeholder; every
vertex is active, so the superstep-0 update overwrites it before any stats
are taken — we use 0 as the placeholder.) -/
def epidemic_init (n : ℕ) (edges : ℕ → List ℕ) : List (Vertex ℤ) :=
  (List.range n).map fun j => ⟨j, 0, edges j, [], [], true, 0⟩

/-! ## Branch lemmas for EpidemicVertex.update -/

theorem update_dead (i : ℕ) (td : ℤ) (nsteps : ℕ) (p : ℚ) (ds : ℕ → ℚ)
    (v : Vertex ℤ) (k : ℕ) (hval : v.value = -1)
    (h1 : 1 ≤ v.superstep) (h2 : v.superstep < nsteps) :
    EpidemicVertex.update i td nsteps p ds v k = ({ v with active := false }, k) := by
  unfold EpidemicVertex.update
  rw [if_neg (by omega : ¬ v.superstep = 0), if_pos h2, if_pos hval]

theorem update_incubating (i : ℕ) (td : ℤ) (nsteps : ℕ) (p : ℚ) (ds : ℕ → ℚ)
    (v : Vertex ℤ) (k : ℕ) (hval : 0 < v.value) (htd : v.value ≤ td)
    (h1 : 1 ≤ v.superstep) (h2 : v.superstep < nsteps) :
    EpidemicVertex.update i td nsteps p ds v k
      = ({ v with
             value := v.value + 1
             outgoing_messages := v.out_vertices.map fun u => (u, 1, "sneeze") }, k) := by
  unfold EpidemicVertex.update
  rw [if_neg (by omega : ¬ v.superstep = 0), if_pos h2,
    if_neg (by omega : ¬ v.value = -1), if_pos hval, if_pos htd]

theorem update_dies (i : ℕ) (td : ℤ) (nsteps : ℕ) (p : ℚ) (ds : ℕ → ℚ)
    (v : Vertex ℤ) (k : ℕ) (hval : 0 < v.value) (htd : ¬ v.value ≤ td)
    (h1 : 1 ≤ v.superstep) (h2 : v.superstep < nsteps) :
    EpidemicVertex.update i td nsteps p ds v k
      = ({ v with value := -1, active := false }, k) := by
  unfold EpidemicVertex.update
  rw [if_neg (by omega : ¬ v.superstep = 0), if_pos h2,
    if_neg (by omega : ¬ v.value = -1), if_pos hval, if_neg htd]

theorem update_healthy (i : ℕ) (td : ℤ) (nsteps : ℕ) (p : ℚ) (ds : ℕ → ℚ)
    (v : Vertex ℤ) (k : ℕ) (hval : v.value = 0)
    (h1 : 1 ≤ v.superstep) (h2 : v.superstep < nsteps) :
    EpidemicVertex.update i td nsteps p ds v k
      = ({ v with value := (infect_loop p ds v.incoming_messages 0 k).1 },
         (infect_loop p ds v.incoming_messages 0 k).2) := by
  unfold EpidemicVertex.update
  rw [if_neg (by omega : ¬ v.superstep = 0), if_pos h2, hval,
    if_neg (by decide : ¬ (0 : ℤ) = -1), if_neg (by decide : ¬ (0 : ℤ) < 0)]

theorem update_ceiling_only_deactivates (i : ℕ) (td : ℤ) (nsteps : ℕ) (p : ℚ)
    (ds : ℕ → ℚ) (v : Vertex ℤ) (k : ℕ)
    (h0 : ¬ v.superstep = 0) (hs : ¬ v.superstep < nsteps) :
    EpidemicVertex.update i td nsteps p ds v k = ({ v with active := false }, k) := by
  unfold EpidemicVertex.update
  rw [if_neg h0, if_neg hs]

/-! ## The infection loop: one independent trial per incoming message -/

theorem infect_loop_snd (p : ℚ) (ds : ℕ → ℚ) :
    ∀ (msgs : List Msg) (v : ℤ) (k : ℕ),
      (infect_loop p ds msgs v k).2 = k + msgs.length
  | [], v, k => by simp [infect_loop]
  | _ :: rest, v, k => by
      simp only [infect_loop, List.length_cons]
      rw [infect_loop_snd p ds rest _ (k + 1)]
      omega

theorem infect_loop_fst_cases (p : ℚ) (ds : ℕ → ℚ) :
    ∀ (msgs : List Msg) (v : ℤ) (k : ℕ),
      (infect_loop p ds msgs v k).1 = 1 ∨ (infect_loop p ds msgs v k).1 = v
  | [], v, k => Or.inr rfl
  | _ :: rest, v, k => by
      simp only [infect_loop]
      rcases infect_loop_fst_cases p ds rest (if ds k < p then 1 else v) (k + 1) with h | h
      · exact Or.inl h
      · rw [h]
        split
        · exact Or.inl rfl
        · exact Or.inr rfl

theorem infect_loop_one_iff (p : ℚ) (ds : ℕ → ℚ) :
    ∀ (msgs : List Msg) (v : ℤ) (k : ℕ), v ≠ 1 →
      ((infect_loop p ds msgs v k).1 = 1 ↔ ∃ j, j < msgs.length ∧ ds (k + j) < p)
  | [], v, k, hv => by
      simp only [infect_loop, List.length_nil]
      constructor
      · intro h; exact absurd h hv
      · rintro ⟨j, hj, -⟩; omega
  | _ :: rest, v, k, hv => by
      simp only [infect_loop, List.length_cons]
      by_cases hd : ds k < p
      · rw [if_pos hd]
        constructor
        · intro _; exact ⟨0, by omega, by simpa using hd⟩
        · intro _
          rcases infect_loop_fst_cases p ds rest 1 (k + 1) with h | h <;> exact h
      · rw [if_neg hd, infect_loop_one_iff p ds rest v (k + 1) hv]
        constructor
        · rintro ⟨j, hj, hdj⟩
          exact ⟨j + 1, by omega, by rw [show k + (j + 1) = k + 1 + j by omega]; exact hdj⟩
        · rintro ⟨j, hj, hdj⟩
          match j, hj with
          | 0, _ => exact absurd (by simpa using hdj) hd
          | jj + 1, hj =>
              exact ⟨jj, by omega, by rw [show k + 1 + jj = k + (jj + 1) by omega]; exact hdj⟩

/-! ## Counting uniform draws: discretising the unit interval into N cells -/

theorem card_fin_ge (N a : ℕ) (ha : a ≤ N) :
    Fintype.card {x : Fin N // a ≤ x.val} = N - a := by
  have e : {x : Fin N // a ≤ x.val} ≃ Fin (N - a) :=
    { toFun := fun x => ⟨x.val.val - a, by
        have h1 := x.val.isLt
        have h2 := x.property
        omega⟩
      invFun := fun y => ⟨⟨y.val + a, by have := y.isLt; omega⟩, Nat.le_add_left a y.val⟩
      left_inv := fun x => by
        have h2 := x.property
        apply Subtype.ext
        apply Fin.ext
        simp
        omega
      right_inv := fun y => by
        apply Fin.ext
        simp }
  rw [Fintype.card_congr e, Fintype.card_fin]

theorem card_filter_all_ge (N a kk : ℕ) (ha : a ≤ N) :
    (Finset.univ.filter fun f : Fin kk → Fin N => ∀ j, a ≤ (f j).val).card
      = (N - a) ^ kk := by
  rw [← Fintype.card_subtype]
  rw [Fintype.card_congr (Equiv.subtypePiEquivPi
    (β := fun _ : Fin kk => Fin N) (p := fun _ x => a ≤ x.val))]
  rw [show Fintype.card (∀ _ : Fin kk, {x : Fin N // a ≤ x.val})
      = Fintype.card {x : Fin N // a ≤ x.val} ^ kk from by
    rw [Fintype.card_fun, Fintype.card_fin]]
  rw [card_fin_ge N a ha]

theorem card_filter_exists_lt (N a kk : ℕ) (ha : a ≤ N) :
    (Finset.univ.filter fun f : Fin kk → Fin N => ∃ j, (f j).val < a).card
      = N ^ kk - (N - a) ^ kk := by
  have hiff : ∀ f : Fin kk → Fin N,
      (∃ j, (f j).val < a) ↔ ¬ ∀ j, a ≤ (f j).val := by
    intro f
    constructor
    · rintro ⟨j, hj⟩ h
      have := h j
      omega
    · intro h
      by_contra hc
      exact h fun j => by
        by_contra hc2
        exact hc ⟨j, by omega⟩
  have hsub : (Finset.univ.filter fun f : Fin kk → Fin N => ∃ j, (f j).val < a).card
      = Fintype.card {f : Fin kk → Fin N // ∃ j, (f j).val < a} :=
    (Fintype.card_subtype _).symm
  have hcompl : Fintype.card {f : Fin kk → Fin N // ∃ j, (f j).val < a}
      = Fintype.card {f : Fin kk → Fin N // ¬ ∀ j, a ≤ (f j).val} :=
    Fintype.card_congr (Equiv.subtypeEquivRight hiff)
  have hc2 : Fintype.card {f : Fin kk → Fin N // ¬ ∀ j, a ≤ (f j).val}
      = Fintype.card (Fin kk → Fin N)
        - Fintype.card {f : Fin kk → Fin N // ∀ j, a ≤ (f j).val} :=
    Fintype.card_subtype_compl _
  have hall : Fintype.card {f : Fin kk → Fin N // ∀ j, a ≤ (f j).val} = (N - a) ^ kk := by
    rw [Fintype.card_subtype]
    exact card_filter_all_ge N a kk ha
  rw [hsub, hcompl, hc2, hall, Fintype.card_fun, Fintype.card_fin, Fintype.card_fin]

/-- The random stream obtained by discretising [0,1) into N equal cells and
drawing cell f j at call j: draw j is the rational (f j)/N.  Calls beyond the
first kk return 1 (never below any probability at most 1). -/
def unit_draws (N kk : ℕ) (f : Fin kk → Fin N) : ℕ → ℚ :=
  fun j => if h : j < kk then ((f ⟨j, h⟩ : ℕ) : ℚ) / (N : ℚ) else 1

/-- C1: a healthy epidemic vertex (value 0) updated at a superstep t with
1 ≤ t < nsteps runs one independent Bernoulli(p) trial per incoming message
(draws k, k+1, ...), ends infected iff at least one trial succeeds, and —
counting uniform draws discretised into N cells with p = a/N — the number of
draw vectors that infect it is N^k - (N-a)^k out of N^k, i.e. it is infected
with probability 1-(1-p)^k rather than by a single trial of probability p. -/
theorem epidemic_per_message_infection
    (i : ℕ) (td : ℤ) (nsteps : ℕ) (p : ℚ) (ds : ℕ → ℚ) (v : Vertex ℤ) (k : ℕ)
    (hval : v.value = 0) (h1 : 1 ≤ v.superstep) (h2 : v.superstep < nsteps) :
    ((EpidemicVertex.update i td nsteps p ds v k).1.value = 1 ↔
      ∃ j, j < v.incoming_messages.length ∧ ds (k + j) < p) ∧
    (∀ N a : ℕ, 0 < N → a ≤ N →
      (Finset.univ.filter fun f : Fin v.incoming_messages.length → Fin N =>
          (EpidemicVertex.update i td nsteps ((a : ℚ) / (N : ℚ))
              (unit_draws N v.incoming_messages.length f) v 0).1.value = 1).card
        = N ^ v.incoming_messages.length - (N - a) ^ v.incoming_messages.length) := by
  constructor
  · rw [update_healthy i td nsteps p ds v k hval h1 h2]
    exact infect_loop_one_iff p ds v.incoming_messages 0 k (by decide)
  · intro N a hN ha
    have hNQ : (0 : ℚ) < (N : ℚ) := by exact_mod_cast hN
    have key : ∀ f : Fin v.incoming_messages.length → Fin N,
        ((EpidemicVertex.update i td nsteps ((a : ℚ) / (N : ℚ))
            (unit_draws N v.incoming_messages.length f) v 0).1.value = 1)
          ↔ ∃ j, (f j).val < a := by
      intro f
      rw [update_healthy i td nsteps _ _ v 0 hval h1 h2]
      rw [infect_loop_one_iff _ _ v.incoming_messages 0 0 (by decide)]
      constructor
      · rintro ⟨j, hj, hd⟩
        simp only [unit_draws, Nat.zero_add] at hd
        rw [dif_pos hj] at hd
        refine ⟨⟨j, hj⟩, ?_⟩
        exact_mod_cast (div_lt_div_iff_of_pos_right hNQ).1 hd
      · rintro ⟨j, hj⟩
        refine ⟨j.val, j.isLt, ?_⟩
        simp only [unit_draws, Nat.zero_add]
        rw [dif_pos j.isLt]
        rw [Fin.eta]
        exact (div_lt_div_iff_of_pos_right hNQ).2 (by exact_mod_cast hj)
    have heq : (Finset.univ.filter fun f : Fin v.incoming_messages.length → Fin N =>
          (EpidemicVertex.update i td nsteps ((a : ℚ) / (N : ℚ))
              (unit_draws N v.incoming_messages.length f) v 0).1.value = 1)
        = Finset.univ.filter fun f : Fin v.incoming_messages.length → Fin N =>
            ∃ j, (f j).val < a := by
      apply Finset.filter_congr
      intro f _
      exact key f
    rw [heq]
    exact card_filter_exists_lt N a v.incoming_messages.length ha

/-- A concrete healthy vertex with two incoming infection messages, at
superstep 1. -/
def vW : Vertex ℤ := ⟨5, 0, [], [(0, 1, "sneeze"), (0, 1, "sneeze")], [], true, 1⟩

/-- A concrete draw stream: first draw 3/4, later draws 1/4. -/
def dsW : ℕ → ℚ := fun j => if j = 0 then 3 / 4 else 1 / 4

/-- Witness for C1: on the concrete healthy vertex with two messages and
p = 1/2, the second trial succeeds and the vertex ends infected, and with
draws discretised into 2 cells exactly 3 = 2^2 - 1^2 of the 4 draw vectors
infect it. -/
theorem epidemic_per_message_infection_witness :
    (EpidemicVertex.update 0 1 2 (1 / 2) dsW vW 0).1.value = 1 ∧
    (Finset.univ.filter fun f : Fin vW.incoming_messages.length → Fin 2 =>
        (EpidemicVertex.update 0 1 2 (((1 : ℕ) : ℚ) / ((2 : ℕ) : ℚ))
            (unit_draws 2 vW.incoming_messages.length f) vW 0).1.value = 1).card = 3 := by
  constructor
  · exact (epidemic_per_message_infection 0 1 2 (1 / 2) dsW vW 0 rfl (by decide)
      (by decide)).1.mpr ⟨1, by decide, by norm_num [dsW]⟩
  · exact ((epidemic_per_message_infection 0 1 2 (((1 : ℕ) : ℚ) / ((2 : ℕ) : ℚ)) dsW vW 0
      rfl (by decide) (by decide)).2 2 1 (by decide) (by decide)).trans (by decide)

/-- C2 counterexample: an infected vertex inside its incubation window emits
the infection message to its neighbor even with p = 0, and it does so for
different draw streams alike: the emission is unconditional, not an
independent probability-p event per neighbor (every draw of random.random()
lies in [0,1), so an event of probability p = 0 — draw < 0 — never happens,
yet the message is sent). -/
theorem epidemic_broadcast_counterexample :
    (EpidemicVertex.update 0 1 2 0 (fun _ => 1 / 2) ⟨3, 1, [7], [], [], true, 1⟩ 0).1.outgoing_messages
        = [(7, 1, "sneeze")] ∧
    (EpidemicVertex.update 0 1 2 0 (fun _ => 0) ⟨3, 1, [7], [], [], true, 1⟩ 0).1.outgoing_messages
        = [(7, 1, "sneeze")] := by
  exact ⟨rfl, rfl⟩

/-- C2 (amended): an infected epidemic vertex within its incubation window
(0 < value ≤ td), updated at a superstep t with 1 ≤ t < nsteps, stays
infected (its value is incremented, staying positive) and emits an infection
message to EVERY outgoing neighbor unconditionally — the random stream plays
no role in the emission; the probability p is applied per message by the
receiving healthy vertex instead. -/
theorem epidemic_incubating_broadcast
    (i : ℕ) (td : ℤ) (nsteps : ℕ) (p : ℚ) (ds : ℕ → ℚ) (v : Vertex ℤ) (k : ℕ)
    (hval : 0 < v.value) (htd : v.value ≤ td)
    (h1 : 1 ≤ v.superstep) (h2 : v.superstep < nsteps) :
    (EpidemicVertex.update i td nsteps p ds v k).1.value = v.value + 1 ∧
    0 < (EpidemicVertex.update i td nsteps p ds v k).1.value ∧
    (EpidemicVertex.update i td nsteps p ds v k).1.outgoing_messages
      = v.out_vertices.map fun u => (u, 1, "sneeze") := by
  rw [update_incubating i td nsteps p ds v k hval htd h1 h2]
  exact ⟨rfl, by simpa using by omega, rfl⟩

/-- Witness for the amended C2: the concrete infected vertex gains one
incubation step and broadcasts to its single neighbor. -/
theorem epidemic_incubating_broadcast_witness :
    (EpidemicVertex.update 0 1 2 (1 / 2) (fun _ => 0) ⟨3, 1, [7], [], [], true, 1⟩ 0).1.value = 1 + 1 ∧
    0 < (EpidemicVertex.update 0 1 2 (1 / 2) (fun _ => 0) ⟨3, 1, [7], [], [], true, 1⟩ 0).1.value ∧
    (EpidemicVertex.update 0 1 2 (1 / 2) (fun _ => 0) ⟨3, 1, [7], [], [], true, 1⟩ 0).1.outgoing_messages
      = [7].map fun u => (u, 1, "sneeze") :=
  epidemic_incubating_broadcast 0 1 2 (1 / 2) (fun _ => 0) ⟨3, 1, [7], [], [], true, 1⟩ 0
    (by decide) (by decide) (by decide) (by decide)

/-! ## Branch lemmas for SocialVertex.update -/

theorem social_update_M (a sp : ℚ) (nsteps : ℕ) (ds : ℕ → ℚ)
    (v : Vertex String) (k : ℕ) (hv : v.value = "M") (hss : v.superstep < nsteps) :
    SocialVertex.update a sp nsteps ds v k
      = some ({ v with outgoing_messages := (send_loop a v.value ds v.out_vertices k).1 },
              (send_loop a v.value ds v.out_vertices k).2) := by
  unfold SocialVertex.update
  rw [if_pos hss, if_pos hv]

theorem social_update_notM (a sp : ℚ) (nsteps : ℕ) (ds : ℕ → ℚ)
    (v : Vertex String) (k : ℕ) (hv : ¬ v.value = "M") (hss : v.superstep < nsteps)
    (f m : ℕ) (hc : countFM v.incoming_messages 0 0 = some (f, m)) :
    SocialVertex.update a sp nsteps ds v k
      = some ({ v with
                  value := if (switch sp ds f m k).1 then "M" else v.value
                  outgoing_messages :=
                    (send_loop a (if (switch sp ds f m k).1 then "M" else v.value) ds
                      v.out_vertices (switch sp ds f m k).2).1 },
              (send_loop a (if (switch sp ds f m k).1 then "M" else v.value) ds
                v.out_vertices (switch sp ds f m k).2).2) := by
  unfold SocialVertex.update
  rw [if_pos hss, if_neg hv, hc]

theorem social_update_ceiling (a sp : ℚ) (nsteps : ℕ) (ds : ℕ → ℚ)
    (v : Vertex String) (k : ℕ) (hss : ¬ v.superstep < nsteps) :
    SocialVertex.update a sp nsteps ds v k = some ({ v with active := false }, k) := by
  unfold SocialVertex.update
  rw [if_neg hss]

theorem card_fin_lt (N b : ℕ) (hb : b ≤ N) :
    (Finset.univ.filter fun x : Fin N => x.val < b).card = b := by
  rw [← Fintype.card_subtype]
  have e : {x : Fin N // x.val < b} ≃ Fin b :=
    { toFun := fun x => ⟨x.val.val, x.property⟩
      invFun := fun y => ⟨⟨y.val, by have := y.isLt; omega⟩, y.isLt⟩
      left_inv := fun x => by
        apply Subtype.ext
        apply Fin.ext
        simp
      right_inv := fun y => by
        apply Fin.ext
        simp }
  rw [Fintype.card_congr e, Fintype.card_fin]

/-- C3: a non-switched social vertex ("F") updated at a superstep below
nsteps, whose incoming messages count f payloads "F" and m payloads "M",
switches to "M" iff m strictly exceeds f AND the single switch draw is below
sp; it never switches when m ≤ f.  At the level of the switch function:
switch can return true only when m > f, in which case it returns true exactly
when the draw is below sp — over N discretised uniform draws with sp = b/N,
exactly b draws (when m > f) and 0 draws (when m ≤ f) make it return true. -/
theorem social_switch_majority
    (a sp : ℚ) (nsteps : ℕ) (ds : ℕ → ℚ) (v : Vertex String) (k : ℕ)
    (hv : v.value = "F") (hss : v.superstep < nsteps)
    (f m : ℕ) (hc : countFM v.incoming_messages 0 0 = some (f, m))
    (r : Vertex String × ℕ) (hr : SocialVertex.update a sp nsteps ds v k = some r) :
    (r.1.value = "M" ↔ (f < m ∧ ds k < sp)) ∧
    (m ≤ f → r.1.value = "F") ∧
    (∀ f' m' k', (switch sp ds f' m' k').1 = true → f' < m') ∧
    (∀ f' m' k', f' < m' → ((switch sp ds f' m' k').1 = true ↔ ds k' < sp)) ∧
    (∀ N b : ℕ, 0 < N → b ≤ N →
      (Finset.univ.filter fun d : Fin N =>
          (switch ((b : ℚ) / (N : ℚ)) (fun _ => ((d : ℕ) : ℚ) / (N : ℚ)) f m 0).1 = true).card
        = if f < m then b else 0) := by
  have hvM : ¬ v.value = "M" := by rw [hv]; decide
  rw [social_update_notM a sp nsteps ds v k hvM hss f m hc, Option.some.injEq] at hr
  have hval : r.1.value = if (switch sp ds f m k).1 then "M" else v.value := by
    rw [← hr]
  have hsw : ∀ (sp' : ℚ) (ds' : ℕ → ℚ) (f' m' k' : ℕ),
      (switch sp' ds' f' m' k').1 = if f' < m' then decide (ds' k' < sp') else false := by
    intro sp' ds' f' m' k'
    unfold switch
    split <;> rfl
  refine ⟨?_, ?_, ?_, ?_, ?_⟩
  · rw [hval, hsw]
    by_cases hfm : f < m
    · rw [if_pos hfm]
      by_cases hd : ds k < sp
      · simp [hd, hfm]
      · simp [hd, hfm, hv]
    · rw [if_neg hfm]
      simp only [if_neg hfm, Bool.false_eq_true, if_false, hv]
      constructor
      · intro h; exact absurd h (by decide)
      · rintro ⟨h, -⟩; exact absurd h hfm
  · intro hmf
    rw [hval, hsw, if_neg (by omega : ¬ f < m)]
    simpa using hv
  · intro f' m' k' h
    rw [hsw] at h
    by_contra hfm
    rw [if_neg hfm] at h
    exact absurd h (by decide)
  · intro f' m' k' hfm
    rw [hsw, if_pos hfm]
    exact decide_eq_true_iff
  · intro N b hN hb
    have hNQ : (0 : ℚ) < (N : ℚ) := by exact_mod_cast hN
    by_cases hfm : f < m
    · rw [if_pos hfm]
      have heq : (Finset.univ.filter fun d : Fin N =>
            (switch ((b : ℚ) / (N : ℚ)) (fun _ => ((d : ℕ) : ℚ) / (N : ℚ)) f m 0).1 = true)
          = Finset.univ.filter fun d : Fin N => d.val < b := by
        apply Finset.filter_congr
        intro d _
        rw [hsw, if_pos hfm, decide_eq_true_iff]
        rw [div_lt_div_iff_of_pos_right hNQ]
        exact_mod_cast Iff.rfl
      rw [heq]
      exact card_fin_lt N b hb
    · rw [if_neg hfm]
      rw [Finset.card_eq_zero, Finset.filter_eq_empty_iff]
      intro d _
      rw [hsw, if_neg hfm]
      decide

/-- A concrete non-switched social vertex with one incoming "M" message. -/
def vS : Vertex String := ⟨2, "F", [], [(0, 1, "M")], [], true, 0⟩

/-- Witness for C3: on the concrete "F" vertex with message counts f = 0,
m = 1 and a certain switch draw, the vertex switches; the switch function
characterisation and the draw count (1 of 2 cells for sp = 1/2) are
instantiated concretely. -/
theorem social_switch_majority_witness :
    (((⟨2, "M", [], [(0, 1, "M")], [], true, 0⟩ : Vertex String), 1).1.value = "M"
        ↔ (0 < 1 ∧ (0 : ℚ) < 1)) ∧
    ((switch 1 (fun _ => 0) 0 1 0).1 = true ↔ (0 : ℚ) < 1) ∧
    (Finset.univ.filter fun d : Fin 2 =>
        (switch (((1 : ℕ) : ℚ) / ((2 : ℕ) : ℚ)) (fun _ => ((d : ℕ) : ℚ) / ((2 : ℕ) : ℚ)) 0 1 0).1
          = true).card = 1 := by
  have h := social_switch_majority 0 1 1 (fun _ => 0) vS 0 rfl (by decide) 0 1 rfl
    (⟨2, "M", [], [(0, 1, "M")], [], true, 0⟩, 1) rfl
  exact ⟨h.1, h.2.2.2.1 0 1 0 (by decide), (h.2.2.2.2 2 1 (by decide) (by decide)).trans (by decide)⟩

/-- One update call never un-switches a social vertex: a vertex whose value
is "M" still has value "M" after its update. -/
theorem social_update_preserves_M (a sp : ℚ) (nsteps : ℕ) (ds : ℕ → ℚ)
    (v : Vertex String) (k : ℕ) (r : Vertex String × ℕ)
    (hv : v.value = "M") (hr : SocialVertex.update a sp nsteps ds v k = some r) :
    r.1.value = "M" := by
  by_cases hss : v.superstep < nsteps
  · rw [social_update_M a sp nsteps ds v k hv hss, Option.some.injEq] at hr
    rw [← hr]
    exact hv
  · rw [social_update_ceiling a sp nsteps ds v k hss, Option.some.injEq] at hr
    rw [← hr]
    exact hv

/-- One engine round as experienced by a single social vertex: if it is
inactive the engine only delivers fresh incoming messages, clears its
outgoing buffer and advances the superstep; if it is active its update runs
first (with any random draws), then the same bookkeeping happens.  The
engine never touches value. -/
inductive SocialStep (a sp : ℚ) (nsteps : ℕ) : Vertex String → Vertex String → Prop
  | idle : ∀ (v : Vertex String) (inc : List Msg), v.active = false →
      SocialStep a sp nsteps v
        { v with
            incoming_messages := inc
            outgoing_messages := []
            superstep := v.superstep + 1 }
  | run : ∀ (v w : Vertex String) (ds : ℕ → ℚ) (k k' : ℕ) (inc : List Msg),
      v.active = true →
      SocialVertex.update a sp nsteps ds v k = some (w, k') →
      SocialStep a sp nsteps v
        { w with
            incoming_messages := inc
            outgoing_messages := []
            superstep := w.superstep + 1 }

/-- C4: once a social vertex's value is "M" at the end of some round, it is
still "M" after any number of further rounds (with arbitrary message
deliveries and random draws): the update rule never assigns "F", so "M" is
absorbing for the whole run. -/
theorem social_M_absorbing (a sp : ℚ) (nsteps : ℕ) (v v' : Vertex String)
    (h : Relation.ReflTransGen (SocialStep a sp nsteps) v v') (hv : v.value = "M") :
    v'.value = "M" := by
  induction h with
  | refl => exact hv
  | tail _ hbc ih =>
      cases hbc with
      | idle inc hact => exact ih
      | run w ds k k' inc hact hupd =>
          exact social_update_preserves_M a sp nsteps ds _ k (w, k') ih hupd

/-- Witness for C4: a halted vertex on "M" is still on "M" after a
bookkeeping round. -/
theorem social_M_absorbing_witness :
    (⟨0, "M", [], [], [], false, 4⟩ : Vertex String).value = "M" :=
  social_M_absorbing 0 0 5 ⟨0, "M", [], [], [], false, 3⟩ ⟨0, "M", [], [], [], false, 4⟩
    (Relation.ReflTransGen.single
      (SocialStep.idle ⟨0, "M", [], [], [], false, 3⟩ [] rfl)) rfl

/-- Every message produced by the sending comprehension carries the sender's
value as its payload. -/
theorem send_loop_payload (a : ℚ) (val : String) (ds : ℕ → ℚ) :
    ∀ (us : List ℕ) (k : ℕ), ∀ msg ∈ (send_loop a val ds us k).1, msg.2.2 = val
  | [], k => by simp [send_loop]
  | u :: rest, k => by
      simp only [send_loop]
      intro msg hmsg
      split at hmsg
      · rcases List.mem_cons.1 hmsg with h | h
        · rw [h]
        · exact send_loop_payload a val ds rest (k + 1) msg h
      · exact send_loop_payload a val ds rest (k + 1) msg hmsg

/-- The counting loop succeeds whenever every payload is "F" or "M". -/
theorem countFM_isSome :
    ∀ (msgs : List Msg), (∀ msg ∈ msgs, msg.2.2 = "F" ∨ msg.2.2 = "M") →
      ∀ f m : ℕ, (countFM msgs f m).isSome = true
  | [], _, f, m => rfl
  | (s, w, pl) :: rest, h, f, m => by
      have hhd := h (s, w, pl) (List.mem_cons_self _ _)
      have htl : ∀ msg ∈ rest, msg.2.2 = "F" ∨ msg.2.2 = "M" :=
        fun msg hm => h msg (List.mem_cons_of_mem _ hm)
      simp only [countFM]
      rcases hhd with hF | hM
      · rw [if_pos hF]
        exact countFM_isSome rest htl (f + 1) m
      · by_cases hF : pl = "F"
        · rw [if_pos hF]
          exact countFM_isSome rest htl (f + 1) m
        · rw [if_neg hF, if_pos hM]
          exact countFM_isSome rest htl f (m + 1)

/-- C9: for a social vertex whose value is "F" or "M" (as every SocialVertex
is: it starts as one of the two and is only ever reassigned to "M"), the
ValueError branch is unreachable when every delivered message was emitted by
such a vertex: (1) if all incoming payloads are "F" or "M" the update
succeeds (never raises ValueError); (2) on success the value is again "F" or
"M"; and (3) every message the update emits (its outgoing buffer having been
cleared by the engine) carries the vertex's own current value — hence "F" or
"M" — as payload. -/
theorem social_valueerror_unreachable (a sp : ℚ) (nsteps : ℕ) (ds : ℕ → ℚ)
    (v : Vertex String) (k : ℕ) (hv : v.value = "F" ∨ v.value = "M") :
    ((∀ msg ∈ v.incoming_messages, msg.2.2 = "F" ∨ msg.2.2 = "M") →
      (SocialVertex.update a sp nsteps ds v k).isSome = true) ∧
    (∀ r, SocialVertex.update a sp nsteps ds v k = some r →
      (r.1.value = "F" ∨ r.1.value = "M") ∧
      (v.outgoing_messages = [] → ∀ msg ∈ r.1.outgoing_messages, msg.2.2 = r.1.value)) := by
  by_cases hss : v.superstep < nsteps
  · by_cases hM : v.value = "M"
    · rw [social_update_M a sp nsteps ds v k hM hss]
      refine ⟨fun _ => rfl, fun r hr => ?_⟩
      rw [Option.some.injEq] at hr
      rw [← hr]
      refine ⟨Or.inr hM, fun _ msg hmsg => ?_⟩
      exact send_loop_payload a v.value ds v.out_vertices k msg hmsg
    · constructor
      · intro hin
        have hc := countFM_isSome v.incoming_messages hin 0 0
        rcases Option.isSome_iff_exists.1 hc with ⟨⟨f, m⟩, hfm⟩
        rw [social_update_notM a sp nsteps ds v k hM hss f m hfm]
        rfl
      · intro r hr
        unfold SocialVertex.update at hr
        rw [if_pos hss, if_neg hM] at hr
        rcases hcm : countFM v.incoming_messages 0 0 with - | ⟨f, m⟩
        · rw [hcm] at hr
          exact absurd hr (by simp)
        · rw [hcm] at hr
          rw [Option.some.injEq] at hr
          rw [← hr]
          constructor
          · by_cases hsw : (switch sp ds f m k).1
            · simp [hsw]
            · simp only [hsw, if_false]
              exact hv
          · intro _ msg hmsg
            exact send_loop_payload a _ ds v.out_vertices (switch sp ds f m k).2 msg hmsg
  · rw [social_update_ceiling a sp nsteps ds v k hss]
    refine ⟨fun _ => rfl, fun r hr => ?_⟩
    rw [Option.some.injEq] at hr
    rw [← hr]
    refine ⟨hv, fun hout msg hmsg => ?_⟩
    rw [show ({ v with active := false } : Vertex String).outgoing_messages
        = v.outgoing_messages from rfl, hout] at hmsg
    exact absurd hmsg (List.not_mem_nil msg)

/-- Witness for C9: the concrete "F" vertex with one "M" message updates
without raising, to a vertex whose value is again one of "F"/"M". -/
theorem social_valueerror_unreachable_witness :
    ((SocialVertex.update 0 1 1 (fun _ => 0) vS 0).isSome = true) ∧
    ((⟨2, "M", [], [(0, 1, "M")], [], true, 0⟩ : Vertex String).value = "F" ∨
      (⟨2, "M", [], [(0, 1, "M")], [], true, 0⟩ : Vertex String).value = "M") := by
  have h := social_valueerror_unreachable 0 1 1 (fun _ => 0) vS 0 (Or.inl rfl)
  refine ⟨h.1 (by decide), ?_⟩
  exact (h.2 (⟨2, "M", [], [(0, 1, "M")], [], true, 0⟩, 1) rfl).1

/-- countP is determined by any relation on which the two predicates agree. -/
theorem countP_congr_forall₂ {α β : Type} (R : α → β → Prop) (p : α → Bool) (q : β → Bool)
    (hpq : ∀ x y, R x y → p x = q y) :
    ∀ {l1 : List α} {l2 : List β}, List.Forall₂ R l1 l2 → l1.countP p = l2.countP q := by
  intro l1 l2 h2
  induction h2 with
  | nil => rfl
  | cons hab _ ih => simp [List.countP_cons, ih, hpq _ _ hab]

/-- C8: the stats collectors are pure: whenever epidemic_stats or
social_stats succeeds it hands back every vertex unchanged (every field), and
the stats triple it returns depends only on the head vertex's superstep and
the vertices' values — two vertex lists with pointwise equal values and equal
head superstep produce identical triples. -/
theorem stats_pure :
    (∀ (vs : List (Vertex ℤ)) (r : List (Vertex ℤ) × (ℕ × ℚ × ℚ)),
      epidemic_stats vs = some r → r.1 = vs) ∧
    (∀ (vs : List (Vertex String)) (r : List (Vertex String) × (ℕ × ℚ × ℚ)),
      social_stats vs = some r → r.1 = vs) ∧
    (∀ vs1 vs2 : List (Vertex ℤ),
      List.Forall₂ (fun u v => u.value = v.value) vs1 vs2 →
      vs1.head?.map (fun v => v.superstep) = vs2.head?.map (fun v => v.superstep) →
      (epidemic_stats vs1).map Prod.snd = (epidemic_stats vs2).map Prod.snd) ∧
    (∀ vs1 vs2 : List (Vertex String),
      List.Forall₂ (fun u v => u.value = v.value) vs1 vs2 →
      vs1.head?.map (fun v => v.superstep) = vs2.head?.map (fun v => v.superstep) →
      (social_stats vs1).map Prod.snd = (social_stats vs2).map Prod.snd) := by
  refine ⟨?_, ?_, ?_, ?_⟩
  · intro vs r hr
    match vs, hr with
    | v0 :: rest, hr =>
        rw [show epidemic_stats (v0 :: rest)
            = some ((v0 :: rest),
              (v0.superstep,
               (((v0 :: rest).countP fun v => decide (0 ≤ v.value)) : ℚ) / ((v0 :: rest).length : ℚ),
               (((v0 :: rest).countP fun v => decide (0 < v.value)) : ℚ) / ((v0 :: rest).length : ℚ)))
          from rfl, Option.some.injEq] at hr
        rw [← hr]
  · intro vs r hr
    match vs, hr with
    | v0 :: rest, hr =>
        rw [show social_stats (v0 :: rest)
            = some ((v0 :: rest),
              (v0.superstep,
               (((v0 :: rest).countP fun v => decide (v.value = "F")) : ℚ) / ((v0 :: rest).length : ℚ),
               (((v0 :: rest).countP fun v => decide (v.value = "M")) : ℚ) / ((v0 :: rest).length : ℚ)))
          from rfl, Option.some.injEq] at hr
        rw [← hr]
  · intro vs1 vs2 h2 hh
    cases h2 with
    | nil => rfl
    | cons hab htl =>
        rename_i u v t1 t2
        have hss : u.superstep = v.superstep := by
          simpa using hh
        have hlen : (u :: t1).length = (v :: t2).length := by
          simpa using htl.length_eq
        have hc1 : (u :: t1).countP (fun w => decide (0 ≤ w.value))
            = (v :: t2).countP (fun w => decide (0 ≤ w.value)) :=
          countP_congr_forall₂ (fun x y => x.value = y.value) _ _
            (fun x y hxy => by rw [hxy]) (List.Forall₂.cons hab htl)
        have hc2 : (u :: t1).countP (fun w => decide (0 < w.value))
            = (v :: t2).countP (fun w => decide (0 < w.value)) :=
          countP_congr_forall₂ (fun x y => x.value = y.value) _ _
            (fun x y hxy => by rw [hxy]) (List.Forall₂.cons hab htl)
        simp only [epidemic_stats, Option.map_some]
        rw [hss, hlen, hc1, hc2]
        rfl
  · intro vs1 vs2 h2 hh
    cases h2 with
    | nil => rfl
    | cons hab htl =>
        rename_i u v t1 t2
        have hss : u.superstep = v.superstep := by
          simpa using hh
        have hlen : (u :: t1).length = (v :: t2).length := by
          simpa using htl.length_eq
        have hc1 : (u :: t1).countP (fun w => decide (w.value = "F"))
            = (v :: t2).countP (fun w => decide (w.value = "F")) :=
          countP_congr_forall₂ (fun x y => x.value = y.value) _ _
            (fun x y hxy => by rw [hxy]) (List.Forall₂.cons hab htl)
        have hc2 : (u :: t1).countP (fun w => decide (w.value = "M"))
            = (v :: t2).countP (fun w => decide (w.value = "M")) :=
          countP_congr_forall₂ (fun x y => x.value = y.value) _ _
            (fun x y hxy => by rw [hxy]) (List.Forall₂.cons hab htl)
        simp only [social_stats, Option.map_some]
        rw [hss, hlen, hc1, hc2]
        rfl

/-- Witness for C8: on a concrete one-vertex list epidemic_stats returns the
list itself unchanged, and two one-vertex lists that differ only in id and
active flag yield the same stats triple. -/
theorem stats_pure_witness :
    (([(⟨0, 0, [], [], [], true, 3⟩ : Vertex ℤ)],
       ((3 : ℕ),
        (((1 : ℕ) : ℚ) / ((1 : ℕ) : ℚ)),
        (((0 : ℕ) : ℚ) / ((1 : ℕ) : ℚ)))).1
      = [(⟨0, 0, [], [], [], true, 3⟩ : Vertex ℤ)]) ∧
    ((epidemic_stats [(⟨0, 5, [], [], [], true, 3⟩ : Vertex ℤ)]).map Prod.snd
      = (epidemic_stats [(⟨9, 5, [], [], [], false, 3⟩ : Vertex ℤ)]).map Prod.snd) := by
  constructor
  · exact stats_pure.1 [⟨0, 0, [], [], [], true, 3⟩] _ rfl
  · exact stats_pure.2.2.1 [⟨0, 5, [], [], [], true, 3⟩] [⟨9, 5, [], [], [], false, 3⟩]
      (List.Forall₂.cons rfl List.Forall₂.nil) rfl

/-- C10: both stats collectors require a non-empty vertex list: they fail on
the empty list (vertices[0] and the division by the vertex count raise in
Python, modelled by none) and return a well-defined triple on every
non-empty list. -/
theorem stats_nonempty_guard :
    epidemic_stats [] = none ∧ social_stats [] = none ∧
    (∀ (v : Vertex ℤ) (vs : List (Vertex ℤ)), (epidemic_stats (v :: vs)).isSome = true) ∧
    (∀ (v : Vertex String) (vs : List (Vertex String)), (social_stats (v :: vs)).isSome = true) :=
  ⟨rfl, rfl, fun _ _ => rfl, fun _ _ => rfl⟩

/-! ## Engine-level lemmas -/

/-- The epidemic update never changes the superstep field. -/
theorem update_superstep (i : ℕ) (td : ℤ) (nsteps : ℕ) (p : ℚ) (ds : ℕ → ℚ)
    (v : Vertex ℤ) (k : ℕ) :
    (EpidemicVertex.update i td nsteps p ds v k).1.superstep = v.superstep := by
  unfold EpidemicVertex.update
  repeat' split
  all_goals rfl

/-- The epidemic update keeps the value at or above the dead sentinel -1. -/
theorem update_value_ge (i : ℕ) (td : ℤ) (nsteps : ℕ) (p : ℚ) (ds : ℕ → ℚ)
    (v : Vertex ℤ) (k : ℕ) (hge : -1 ≤ v.value) :
    -1 ≤ (EpidemicVertex.update i td nsteps p ds v k).1.value := by
  by_cases h0 : v.superstep = 0
  · unfold EpidemicVertex.update
    rw [if_pos h0]
    split
    · exact (by decide : (-1 : ℤ) ≤ 1)
    · exact (by decide : (-1 : ℤ) ≤ 0)
  · by_cases h2 : v.superstep < nsteps
    · by_cases hd : v.value = -1
      · rw [update_dead i td nsteps p ds v k hd (by omega) h2]
        exact hge
      · by_cases hpos : 0 < v.value
        · by_cases htd : v.value ≤ td
          · rw [update_incubating i td nsteps p ds v k hpos htd (by omega) h2]
            show -1 ≤ v.value + 1
            omega
          · rw [update_dies i td nsteps p ds v k hpos htd (by omega) h2]
        · have hz : v.value = 0 := by omega
          rw [update_healthy i td nsteps p ds v k hz (by omega) h2]
          show -1 ≤ (infect_loop p ds v.incoming_messages 0 k).1
          rcases infect_loop_fst_cases p ds v.incoming_messages 0 k with h | h
          · rw [h]; exact (by decide : (-1 : ℤ) ≤ 1)
          · rw [h]; exact (by decide : (-1 : ℤ) ≤ 0)
    · rw [update_ceiling_only_deactivates i td nsteps p ds v k h0 h2]
      exact hge

/-- Backwards monotonicity of liveness: at a superstep at least 1 the
epidemic update never turns a dead vertex (value below 0, hence -1) into an
alive one. -/
theorem update_alive_mono (i : ℕ) (td : ℤ) (nsteps : ℕ) (p : ℚ) (ds : ℕ → ℚ)
    (v : Vertex ℤ) (k : ℕ) (h1 : 1 ≤ v.superstep) (hge : -1 ≤ v.value)
    (ha : 0 ≤ (EpidemicVertex.update i td nsteps p ds v k).1.value) :
    0 ≤ v.value := by
  by_cases h2 : v.superstep < nsteps
  · by_cases hd : v.value = -1
    · rw [update_dead i td nsteps p ds v k hd h1 h2] at ha
      have ha2 : (0 : ℤ) ≤ -1 := by rw [← hd]; exact ha
      exact absurd ha2 (by decide)
    · have hlt : -1 < v.value := lt_of_le_of_ne hge (fun hx => hd hx.symm)
      omega
  · rw [update_ceiling_only_deactivates i td nsteps p ds v k (by omega) h2] at ha
    exact ha

/-- run_updates preserves the length of the vertex list. -/
theorem run_updates_length {α : Type} (upd : (ℕ → ℚ) → Vertex α → ℕ → Vertex α × ℕ)
    (ds : ℕ → ℚ) :
    ∀ (vs : List (Vertex α)) (k : ℕ), (run_updates upd ds vs k).1.length = vs.length
  | [], k => rfl
  | v :: rest, k => by
      simp only [run_updates]
      split
      · simp [run_updates_length upd ds rest]
      · simp [run_updates_length upd ds rest]

/-- A per-vertex property preserved by the update rule holds for every vertex
after run_updates. -/
theorem run_updates_mem {α : Type} (upd : (ℕ → ℚ) → Vertex α → ℕ → Vertex α × ℕ)
    (ds : ℕ → ℚ) (P : Vertex α → Prop)
    (hP : ∀ (v : Vertex α) (k : ℕ), P v → P (upd ds v k).1) :
    ∀ (vs : List (Vertex α)) (k : ℕ), (∀ v ∈ vs, P v) →
      ∀ w ∈ (run_updates upd ds vs k).1, P w
  | [], k, _, w, hw => absurd hw (List.not_mem_nil w)
  | v :: rest, k, hvs, w, hw => by
      have hhd := hvs v (List.mem_cons_self _ _)
      have htl : ∀ u ∈ rest, P u := fun u hu => hvs u (List.mem_cons_of_mem _ hu)
      simp only [run_updates] at hw
      split at hw
      · rcases List.mem_cons.1 hw with h | h
        · rw [h]
          exact hP v k hhd
        · exact run_updates_mem upd ds P hP rest _ htl w h
      · rcases List.mem_cons.1 hw with h | h
        · rw [h]
          exact hhd
        · exact run_updates_mem upd ds P hP rest _ htl w h

/-- At supersteps at least 1 the number of alive vertices does not grow
across the update sweep of a round. -/
theorem run_updates_alive_mono (i : ℕ) (td : ℤ) (nsteps : ℕ) (p : ℚ) (ds : ℕ → ℚ) :
    ∀ (vs : List (Vertex ℤ)) (k : ℕ),
      (∀ v ∈ vs, 1 ≤ v.superstep ∧ -1 ≤ v.value) →
      (run_updates (EpidemicVertex.update i td nsteps p) ds vs k).1.countP
          (fun v => decide (0 ≤ v.value))
        ≤ vs.countP (fun v => decide (0 ≤ v.value))
  | [], k, _ => le_refl _
  | v :: rest, k, hvs => by
      have hhd := hvs v (List.mem_cons_self _ _)
      have htl : ∀ u ∈ rest, 1 ≤ u.superstep ∧ -1 ≤ u.value :=
        fun u hu => hvs u (List.mem_cons_of_mem _ hu)
      simp only [run_updates]
      split
      · have hrest := run_updates_alive_mono i td nsteps p ds rest
          (EpidemicVertex.update i td nsteps p ds v k).2 htl
        simp only [List.countP_cons]
        have hhd2 : (if decide (0 ≤ (EpidemicVertex.update i td nsteps p ds v k).1.value) = true
              then 1 else 0)
            ≤ (if decide (0 ≤ v.value) = true then 1 else 0) := by
          by_cases hup : 0 ≤ (EpidemicVertex.update i td nsteps p ds v k).1.value
          · have := update_alive_mono i td nsteps p ds v k hhd.1 hhd.2 hup
            simp [hup, this]
          · simp [hup]
        omega
      · have hrest := run_updates_alive_mono i td nsteps p ds rest k htl
        simp only [List.countP_cons]
        omega

/-- Redistribution touches only the message buffers. -/
theorem redistribute_fields {α : Type} (all : List Msg) (v : Vertex α) :
    (redistribute all v).value = v.value ∧ (redistribute all v).superstep = v.superstep ∧
    (redistribute all v).active = v.active :=
  ⟨rfl, rfl, rfl⟩

/-- Counting a value-based predicate commutes with the redistribution map of
a round. -/
theorem round_snapshot_countP {α : Type} (upd : (ℕ → ℚ) → Vertex α → ℕ → Vertex α × ℕ)
    (ds : ℕ → ℚ) (st : List (Vertex α) × ℕ) (pI : α → Bool) :
    (round_snapshot upd ds st).1.countP (fun v => pI v.value)
      = (run_updates upd ds st.1 st.2).1.countP (fun v => pI v.value) := by
  simp only [round_snapshot, List.countP_map]
  rfl

/-- Counting a value-based predicate commutes with the superstep advance. -/
theorem advance_countP {α : Type} (st : List (Vertex α) × ℕ) (pI : α → Bool) :
    (advance st).1.countP (fun v => pI v.value) = st.1.countP (fun v => pI v.value) := by
  simp only [advance, List.countP_map]
  rfl

/-- The length of the vertex list through one round. -/
theorem round_snapshot_length {α : Type} (upd : (ℕ → ℚ) → Vertex α → ℕ → Vertex α × ℕ)
    (ds : ℕ → ℚ) (st : List (Vertex α) × ℕ) :
    (round_snapshot upd ds st).1.length = st.1.length := by
  simp only [round_snapshot, List.length_map]
  exact run_updates_length upd ds st.1 st.2

/-- Invariants of the epidemic run: after round t every vertex carries
superstep t, its value is at least -1, and the population size is n. -/
theorem pregel_states_inv (i : ℕ) (td : ℤ) (nsteps : ℕ) (p : ℚ) (ds : ℕ → ℚ)
    (n : ℕ) (edges : ℕ → List ℕ) :
    ∀ t : ℕ,
      (pregel_states (EpidemicVertex.update i td nsteps p) ds (epidemic_init n edges) t).1.length = n ∧
      (∀ v ∈ (pregel_states (EpidemicVertex.update i td nsteps p) ds
          (epidemic_init n edges) t).1, v.superstep = t ∧ -1 ≤ v.value) := by
  have hP : ∀ (t : ℕ) (v : Vertex ℤ) (k : ℕ), (v.superstep = t ∧ -1 ≤ v.value) →
      ((EpidemicVertex.update i td nsteps p ds v k).1.superstep = t ∧
        -1 ≤ (EpidemicVertex.update i td nsteps p ds v k).1.value) := by
    intro t v k hv
    exact ⟨by rw [update_superstep]; exact hv.1, update_value_ge i td nsteps p ds v k hv.2⟩
  intro t
  induction t with
  | zero =>
      constructor
      · rw [show pregel_states (EpidemicVertex.update i td nsteps p) ds
              (epidemic_init n edges) 0
            = round_snapshot (EpidemicVertex.update i td nsteps p) ds
              (epidemic_init n edges, 0) from rfl]
        rw [round_snapshot_length]
        simp [epidemic_init]
      · intro v hv
        simp only [pregel_states, round_snapshot, List.mem_map] at hv
        rcases hv with ⟨u, hu, hredist⟩
        have hinit : ∀ w ∈ epidemic_init n edges, w.superstep = 0 ∧ -1 ≤ w.value := by
          intro w hw
          simp only [epidemic_init, List.mem_map] at hw
          rcases hw with ⟨j, -, hj⟩
          rw [← hj]
          exact ⟨rfl, (by decide : (-1 : ℤ) ≤ 0)⟩
        have hu2 := run_updates_mem (EpidemicVertex.update i td nsteps p) ds
          (fun w => w.superstep = 0 ∧ -1 ≤ w.value) (hP 0) (epidemic_init n edges) 0
          hinit u hu
        rw [← hredist]
        exact hu2
  | succ t ih =>
      constructor
      · rw [show pregel_states (EpidemicVertex.update i td nsteps p) ds
              (epidemic_init n edges) (t + 1)
            = round_snapshot (EpidemicVertex.update i td nsteps p) ds
              (advance (pregel_states (EpidemicVertex.update i td nsteps p) ds
                (epidemic_init n edges) t)) from rfl]
        rw [round_snapshot_length]
        simp only [advance, List.length_map]
        exact ih.1
      · intro v hv
        rw [show pregel_states (EpidemicVertex.update i td nsteps p) ds
              (epidemic_init n edges) (t + 1)
            = round_snapshot (EpidemicVertex.update i td nsteps p) ds
              (advance (pregel_states (EpidemicVertex.update i td nsteps p) ds
                (epidemic_init n edges) t)) from rfl] at hv
        simp only [round_snapshot, List.mem_map] at hv
        rcases hv with ⟨u, hu, hredist⟩
        have hadv : ∀ w ∈ (advance (pregel_states (EpidemicVertex.update i td nsteps p) ds
            (epidemic_init n edges) t)).1, w.superstep = t + 1 ∧ -1 ≤ w.value := by
          intro w hw
          simp only [advance, List.mem_map] at hw
          rcases hw with ⟨u2, hu2, hw2⟩
          have := ih.2 u2 hu2
          rw [← hw2]
          exact ⟨by simpa using this.1, this.2⟩
        have hu3 := run_updates_mem (EpidemicVertex.update i td nsteps p) ds
          (fun w => w.superstep = t + 1 ∧ -1 ≤ w.value) (hP (t + 1)) _ _ hadv u hu
        rw [← hredist]
        exact hu3

/-- C5: along the epidemic run (engine modelled from the spec), the fraction
of alive vertices palive computed by epidemic_stats is non-increasing from
each round of the stats series to the next: at supersteps at least 1 no
update moves a value from -1 (dead) back to a value at least 0. -/
theorem epidemic_palive_nonincreasing
    (i : ℕ) (td : ℤ) (nsteps : ℕ) (p : ℚ) (ds : ℕ → ℚ) (n : ℕ) (edges : ℕ → List ℕ)
    (t : ℕ) (s s' : ℕ × ℚ × ℚ)
    (hs : (epidemic_stats (pregel_states (EpidemicVertex.update i td nsteps p) ds
            (epidemic_init n edges) t).1).map Prod.snd = some s)
    (hs' : (epidemic_stats (pregel_states (EpidemicVertex.update i td nsteps p) ds
            (epidemic_init n edges) (t + 1)).1).map Prod.snd = some s') :
    s'.2.1 ≤ s.2.1 := by
  have hinv := pregel_states_inv i td nsteps p ds n edges t
  have hinv' := pregel_states_inv i td nsteps p ds n edges (t + 1)
  -- the alive count cannot grow from round t to round t+1
  have hcount : (pregel_states (EpidemicVertex.update i td nsteps p) ds
        (epidemic_init n edges) (t + 1)).1.countP (fun v => decide (0 ≤ v.value))
      ≤ (pregel_states (EpidemicVertex.update i td nsteps p) ds
        (epidemic_init n edges) t).1.countP (fun v => decide (0 ≤ v.value)) := by
    rw [show pregel_states (EpidemicVertex.update i td nsteps p) ds
          (epidemic_init n edges) (t + 1)
        = round_snapshot (EpidemicVertex.update i td nsteps p) ds
          (advance (pregel_states (EpidemicVertex.update i td nsteps p) ds
            (epidemic_init n edges) t)) from rfl]
    have h1 := round_snapshot_countP (EpidemicVertex.update i td nsteps p) ds
      (advance (pregel_states (EpidemicVertex.update i td nsteps p) ds
        (epidemic_init n edges) t)) (fun z => decide (0 ≤ z))
    rw [h1]
    have hhyp : ∀ v ∈ (advance (pregel_states (EpidemicVertex.update i td nsteps p) ds
        (epidemic_init n edges) t)).1, 1 ≤ v.superstep ∧ -1 ≤ v.value := by
      intro v hv
      simp only [advance, List.mem_map] at hv
      rcases hv with ⟨u, hu, hv2⟩
      have := hinv.2 u hu
      rw [← hv2]
      exact ⟨by simp, this.2⟩
    have h2 := run_updates_alive_mono i td nsteps p ds
      (advance (pregel_states (EpidemicVertex.update i td nsteps p) ds
        (epidemic_init n edges) t)).1
      (advance (pregel_states (EpidemicVertex.update i td nsteps p) ds
        (epidemic_init n edges) t)).2 hhyp
    have h3 := advance_countP (pregel_states (EpidemicVertex.update i td nsteps p) ds
      (epidemic_init n edges) t) (fun z => decide (0 ≤ z))
    rw [h3] at h2
    exact h2
  -- extract the two triples
  rcases hv : (pregel_states (EpidemicVertex.update i td nsteps p) ds
      (epidemic_init n edges) t).1 with - | ⟨v0, rest⟩
  · rw [hv] at hs
    exact absurd hs (by simp [epidemic_stats])
  rcases hv' : (pregel_states (EpidemicVertex.update i td nsteps p) ds
      (epidemic_init n edges) (t + 1)).1 with - | ⟨w0, rest'⟩
  · rw [hv'] at hs'
    exact absurd hs' (by simp [epidemic_stats])
  rw [hv] at hs hcount
  rw [hv'] at hs' hcount
  simp only [epidemic_stats, Option.map_some', Option.some.injEq] at hs hs'
  rw [← hs, ← hs']
  show (((w0 :: rest').countP fun v => decide (0 ≤ v.value)) : ℚ) / ((w0 :: rest').length : ℚ)
      ≤ (((v0 :: rest).countP fun v => decide (0 ≤ v.value)) : ℚ) / ((v0 :: rest).length : ℚ)
  have hlen : (w0 :: rest').length = (v0 :: rest).length := by
    rw [← hv, ← hv', hinv.1, hinv'.1]
  rw [hlen, div_eq_mul_inv, div_eq_mul_inv]
  apply mul_le_mul_of_nonneg_right
  · exact_mod_cast hcount
  · have : (0 : ℚ) ≤ ((v0 :: rest).length : ℚ) := by positivity
    exact inv_nonneg.mpr this

/-- Witness for C5: in a concrete 1-vertex run (the vertex initially
infected, incubating at round 1), palive at round 1 is at most palive at
round 0. -/
theorem epidemic_palive_nonincreasing_witness :
    ((((1 : ℕ), ((1 : ℕ) : ℚ) / ((1 : ℕ) : ℚ), ((1 : ℕ) : ℚ) / ((1 : ℕ) : ℚ)) :
        ℕ × ℚ × ℚ)).2.1
      ≤ ((((0 : ℕ), ((1 : ℕ) : ℚ) / ((1 : ℕ) : ℚ), ((1 : ℕ) : ℚ) / ((1 : ℕ) : ℚ)) :
        ℕ × ℚ × ℚ)).2.1 :=
  epidemic_palive_nonincreasing 1 1 2 0 (fun _ => 0) 1 (fun _ => []) 0
    ((0 : ℕ), ((1 : ℕ) : ℚ) / ((1 : ℕ) : ℚ), ((1 : ℕ) : ℚ) / ((1 : ℕ) : ℚ))
    ((1 : ℕ), ((1 : ℕ) : ℚ) / ((1 : ℕ) : ℚ), ((1 : ℕ) : ℚ) / ((1 : ℕ) : ℚ))
    rfl rfl

/-- The fully connected topology on 2 vertices: 0 → 1 and 1 → 0. -/
def edges2 : ℕ → List ℕ := fun j => if j = 0 then [1] else [0]

/-- C6 counterexample: in the concrete 2-vertex epidemic run (vertex 0
initially infected, td = 1, p = 1.0, here with the draw stream constantly 0,
a legal value of random.random()), at round 3 vertex 1 is still alive with
value 2 and the stats series shows pAlive = 1/2, not 0: the claim that both
vertices are dead by round 3 with pAlive dropping to 0.0 by round 3 is
false — vertex 1, infected at round 2, only dies at round 4. -/
theorem epidemic_scenarioB_counterexample :
    (pregel_states (EpidemicVertex.update 1 1 50 1) (fun _ => 0) (epidemic_init 2 edges2) 3).1
      = [⟨0, -1, [1], [(0, 1, "sneeze")], [], false, 3⟩, ⟨1, 2, [0], [], [], true, 3⟩] ∧
    (epidemic_stats (pregel_states (EpidemicVertex.update 1 1 50 1) (fun _ => 0)
        (epidemic_init 2 edges2) 3).1).map Prod.snd = some ((3 : ℕ), 1 / 2, 1 / 2) ∧
    ((1 : ℚ) / 2 ≠ 0) := by
  have h3 : (pregel_states (EpidemicVertex.update 1 1 50 1) (fun _ => 0)
      (epidemic_init 2 edges2) 3).1
      = [⟨0, -1, [1], [(0, 1, "sneeze")], [], false, 3⟩, ⟨1, 2, [0], [], [], true, 3⟩] := rfl
  refine ⟨h3, ?_, by norm_num⟩
  rw [h3]
  simp only [epidemic_stats, Option.map_some', Option.some.injEq]
  norm_num

/-- C6 (amended): in the concrete epidemic run with 2 vertices fully
connected both ways, vertex 0 initially infected at value 1, incubation
length td = 1 and infection probability p = 1.0 (for any draw stream with
values in [0,1)): vertex 0 dies at round 2, vertex 1 becomes infected by
round 2, both vertices are dead by round 4 — not 3 — and the stats series
shows pAlive dropping from 1.0 (round 0) to 0.0 by round 4. -/
theorem epidemic_scenarioB (ds : ℕ → ℚ) (hds : ∀ j, 0 ≤ ds j ∧ ds j < 1) :
    (pregel_states (EpidemicVertex.update 1 1 50 1) ds (epidemic_init 2 edges2) 2).1
      = [⟨0, -1, [1], [], [], false, 2⟩, ⟨1, 1, [0], [], [], true, 2⟩] ∧
    (pregel_states (EpidemicVertex.update 1 1 50 1) ds (epidemic_init 2 edges2) 4).1
      = [⟨0, -1, [1], [], [], false, 4⟩, ⟨1, -1, [0], [], [], false, 4⟩] ∧
    (epidemic_stats (pregel_states (EpidemicVertex.update 1 1 50 1) ds
        (epidemic_init 2 edges2) 0).1).map Prod.snd = some ((0 : ℕ), 1, 1 / 2) ∧
    (epidemic_stats (pregel_states (EpidemicVertex.update 1 1 50 1) ds
        (epidemic_init 2 edges2) 4).1).map Prod.snd = some ((4 : ℕ), 0, 0) := by
  have h1 : ds 0 < 1 := (hds 0).2
  have e1 : pregel_states (EpidemicVertex.update 1 1 50 1) ds (epidemic_init 2 edges2) 1
      = ([⟨0, 2, [1], [], [], true, 1⟩, ⟨1, 0, [0], [(1, 1, "sneeze")], [], true, 1⟩], 0) := rfl
  have estep2 : pregel_states (EpidemicVertex.update 1 1 50 1) ds (epidemic_init 2 edges2) 2
      = round_snapshot (EpidemicVertex.update 1 1 50 1) ds
          (advance (pregel_states (EpidemicVertex.update 1 1 50 1) ds
            (epidemic_init 2 edges2) 1)) := rfl
  have e2 : pregel_states (EpidemicVertex.update 1 1 50 1) ds (epidemic_init 2 edges2) 2
      = ([⟨0, -1, [1], [], [], false, 2⟩, ⟨1, 1, [0], [], [], true, 2⟩], 1) := by
    rw [estep2, e1]
    simp only [round_snapshot, advance, run_updates, EpidemicVertex.update, infect_loop,
      collect_outgoing, redistribute, List.map, List.filter, h1, if_true]
    norm_num
    exact h1
  have estep3 : pregel_states (EpidemicVertex.update 1 1 50 1) ds (epidemic_init 2 edges2) 3
      = round_snapshot (EpidemicVertex.update 1 1 50 1) ds
          (advance (pregel_states (EpidemicVertex.update 1 1 50 1) ds
            (epidemic_init 2 edges2) 2)) := rfl
  have e3 : pregel_states (EpidemicVertex.update 1 1 50 1) ds (epidemic_init 2 edges2) 3
      = ([⟨0, -1, [1], [(0, 1, "sneeze")], [], false, 3⟩, ⟨1, 2, [0], [], [], true, 3⟩], 1) := by
    rw [estep3, e2]
    rfl
  have estep4 : pregel_states (EpidemicVertex.update 1 1 50 1) ds (epidemic_init 2 edges2) 4
      = round_snapshot (EpidemicVertex.update 1 1 50 1) ds
          (advance (pregel_states (EpidemicVertex.update 1 1 50 1) ds
            (epidemic_init 2 edges2) 3)) := rfl
  have e4 : pregel_states (EpidemicVertex.update 1 1 50 1) ds (epidemic_init 2 edges2) 4
      = ([⟨0, -1, [1], [], [], false, 4⟩, ⟨1, -1, [0], [], [], false, 4⟩], 1) := by
    rw [estep4, e3]
    rfl
  refine ⟨by rw [e2], by rw [e4], ?_, ?_⟩
  · simp only [show (pregel_states (EpidemicVertex.update 1 1 50 1) ds
        (epidemic_init 2 edges2) 0).1
        = [⟨0, 1, [1], [], [], true, 0⟩, ⟨1, 0, [0], [], [], true, 0⟩] from rfl]
    simp only [epidemic_stats, Option.map_some', Option.some.injEq]
    norm_num
  · rw [e4]
    simp only [epidemic_stats, Option.map_some', Option.some.injEq]
    norm_num

/-- Witness for the amended C6: the run with the constant-0 draw stream. -/
theorem epidemic_scenarioB_witness :
    (pregel_states (EpidemicVertex.update 1 1 50 1) (fun _ => (0 : ℚ))
        (epidemic_init 2 edges2) 2).1
      = [⟨0, -1, [1], [], [], false, 2⟩, ⟨1, 1, [0], [], [], true, 2⟩] ∧
    (pregel_states (EpidemicVertex.update 1 1 50 1) (fun _ => (0 : ℚ))
        (epidemic_init 2 edges2) 4).1
      = [⟨0, -1, [1], [], [], false, 4⟩, ⟨1, -1, [0], [], [], false, 4⟩] ∧
    (epidemic_stats (pregel_states (EpidemicVertex.update 1 1 50 1) (fun _ => (0 : ℚ))
        (epidemic_init 2 edges2) 0).1).map Prod.snd = some ((0 : ℕ), 1, 1 / 2) ∧
    (epidemic_stats (pregel_states (EpidemicVertex.update 1 1 50 1) (fun _ => (0 : ℚ))
        (epidemic_init 2 edges2) 4).1).map Prod.snd = some ((4 : ℕ), 0, 0) :=
  epidemic_scenarioB (fun _ => 0) (fun j => ⟨le_refl 0, by norm_num⟩)

/-- If the update deactivates every vertex it touches, every vertex is
inactive after the update sweep. -/
theorem run_updates_all_inactive {α : Type} (upd : (ℕ → ℚ) → Vertex α → ℕ → Vertex α × ℕ)
    (ds : ℕ → ℚ) :
    ∀ (vs : List (Vertex α)) (k : ℕ),
      (∀ v ∈ vs, ∀ k', (upd ds v k').1.active = false) →
      ∀ w ∈ (run_updates upd ds vs k).1, w.active = false
  | [], k, _, w, hw => absurd hw (List.not_mem_nil w)
  | v :: rest, k, hvs, w, hw => by
      have hhd := hvs v (List.mem_cons_self _ _)
      have htl : ∀ u ∈ rest, ∀ k', (upd ds u k').1.active = false :=
        fun u hu => hvs u (List.mem_cons_of_mem _ hu)
      simp only [run_updates] at hw
      by_cases hact : v.active = true
      · rw [if_pos hact] at hw
        rcases List.mem_cons.1 hw with h | h
        · rw [h]
          exact hhd k
        · exact run_updates_all_inactive upd ds rest _ htl w h
      · rw [if_neg hact] at hw
        rcases List.mem_cons.1 hw with h | h
        · rw [h]
          exact Bool.not_eq_true v.active ▸ hact
        · exact run_updates_all_inactive upd ds rest k htl w h

/-- C7: at a superstep at or beyond the step ceiling nsteps (at least 1, as
in both notebooks), the epidemic update and the social update both set
active to false and change nothing else — same value, same buffers, no
messages emitted — and after the resulting bookkeeping round every vertex of
the (spec-modelled) engine round is inactive, so the run loop's active-set
check fails and the loop terminates. -/
theorem ceiling_deactivates (i : ℕ) (td : ℤ) (nsteps : ℕ) (p a sp : ℚ) (ds : ℕ → ℚ) :
    (∀ (v : Vertex ℤ) (k : ℕ), 1 ≤ nsteps → nsteps ≤ v.superstep →
      EpidemicVertex.update i td nsteps p ds v k = ({ v with active := false }, k)) ∧
    (∀ (v : Vertex String) (k : ℕ), nsteps ≤ v.superstep →
      SocialVertex.update a sp nsteps ds v k = some ({ v with active := false }, k)) ∧
    (∀ (vs : List (Vertex ℤ)) (k : ℕ), 1 ≤ nsteps → (∀ v ∈ vs, nsteps ≤ v.superstep) →
      ∀ w ∈ (round_snapshot (EpidemicVertex.update i td nsteps p) ds (vs, k)).1,
        w.active = false) := by
  refine ⟨?_, ?_, ?_⟩
  · intro v k hn hs
    exact update_ceiling_only_deactivates i td nsteps p ds v k (by omega) (by omega)
  · intro v k hs
    exact social_update_ceiling a sp nsteps ds v k (by omega)
  · intro vs k hn hvs w hw
    simp only [round_snapshot, List.mem_map] at hw
    rcases hw with ⟨u, hu, hredist⟩
    have hupd : ∀ v ∈ vs, ∀ k', (EpidemicVertex.update i td nsteps p ds v k').1.active = false := by
      intro v hv k'
      rw [update_ceiling_only_deactivates i td nsteps p ds v k'
        (by have := hvs v hv; omega) (by have := hvs v hv; omega)]
    have := run_updates_all_inactive (EpidemicVertex.update i td nsteps p) ds vs k hupd u hu
    rw [← hredist]
    exact this

/-- Witness for C7: concrete vertices at superstep 5 with ceiling 2. -/
theorem ceiling_deactivates_witness :
    (EpidemicVertex.update 0 1 2 0 (fun _ => 0) ⟨0, 1, [], [], [], true, 5⟩ 0
      = ((⟨0, 1, [], [], [], false, 5⟩ : Vertex ℤ), 0)) ∧
    (SocialVertex.update 0 0 2 (fun _ => 0) ⟨0, "F", [], [], [], true, 5⟩ 0
      = some ((⟨0, "F", [], [], [], false, 5⟩ : Vertex String), 0)) ∧
    ((⟨0, 1, [], [], [], false, 5⟩ : Vertex ℤ).active = false) := by
  have h := ceiling_deactivates 0 1 2 0 0 0 (fun _ => 0)
  refine ⟨h.1 ⟨0, 1, [], [], [], true, 5⟩ 0 (by decide) (by decide),
    h.2.1 ⟨0, "F", [], [], [], true, 5⟩ 0 (by decide), ?_⟩
  exact h.2.2 [⟨0, 1, [], [], [], true, 5⟩] 0 (by decide)
    (by intro v hv; rw [List.mem_singleton] at hv; rw [hv]; decide)
    ⟨0, 1, [], [], [], false, 5⟩ (by decide)

end PregelModel
